import Mathlib

/-!
Verification of the two text-substitution scripts of this repository:
`fix_borders.py` (StyleTokenRewriter) and `fix_tests.py` (FieldInserter).

Strings are modelled as `List Char`.  `re.sub` with a literal pattern is
modelled by `replaceAll`, which replaces every non-overlapping occurrence
scanning left to right, exactly as Python's `re.sub` does for a pattern
without metacharacters.  The single regular expression of `fix_tests.py`,

  `(codeChange:\s*[^,\n]+,)(\s*)((?!organisationalPressure)[a-zA-Z])`

is modelled by `matchAt`, which enumerates the backtracking candidates of
each greedy sub-pattern (longest first, as the Python engine does) and
returns the first full match at the given position, together with the
capture groups; `subScanF` then performs the left-to-right scan of
`re.sub`, emitting the replacement template `\1\2organisationalPressure: 1,\2\3`
at each match.
-/

/-- Replace-all with a literal pattern, scanning left to right, with explicit
fuel (one unit per scan step; `fuel = s.length` always suffices). -/
def replaceAllF (pat rep : List Char) : Nat → List Char → List Char
  | 0, s => s
  | fuel + 1, s =>
    if pat.isPrefixOf s then
      rep ++ replaceAllF pat rep fuel (s.drop pat.length)
    else
      match s with
      | [] => []
      | c :: rest => c :: replaceAllF pat rep fuel rest

/-- `re.sub(pat, rep, s)` for a literal (metacharacter-free) pattern `pat`. -/
def replaceAll (pat rep s : List Char) : List Char :=
  replaceAllF pat rep s.length s

/-- The ordered substitution table of `fix_borders.py` (`replacements`). -/
def replacements : List (List Char × List Char) :=
  [ ("border-b-4 border-black".toList, "border-b".toList),
    ("border-r-4 border-black".toList, "border-r".toList),
    ("border-t-4 border-black".toList, "border-t".toList),
    ("border-l-4 border-black".toList, "border-l".toList),
    ("border-brutal".toList, "border rounded-lg".toList),
    ("shadow-brutal-lg".toList, "shadow-md".toList),
    ("shadow-brutal".toList, "shadow-sm".toList),
    ("hover:shadow-brutal".toList, "hover:shadow-md".toList),
    ("font-black".toList, "font-semibold".toList),
    ("border-2 border-black".toList, "border".toList) ]

/-- The per-file transformation of `fix_borders.py`: the ten substitutions
applied in their listed order, each to the output of the previous one. -/
def applyReplacements (content : List Char) : List Char :=
  replacements.foldl (fun acc pr => replaceAll pr.1 pr.2 acc) content

/-- The fixed file list of `fix_borders.py` (`files_to_fix`). -/
def files_to_fix : List String :=
  [ "src/components/TestCaseRowNormal.tsx",
    "src/components/TestCaseRowTeaching.tsx",
    "src/components/TableFilters.tsx" ]

/-- Does a character match Python's `\s` class (ASCII range)? -/
def isPySpace (c : Char) : Bool :=
  c = ' ' || c = '\t' || c = '\n' || c = '\r' || c = '\x0b' || c = '\x0c'

/-- Does a character match the value class `[^,\n]`? -/
def notCommaNl (c : Char) : Bool :=
  !(c = ',' || c = '\n')

/-- Does a character match `[a-zA-Z]`? -/
def isAsciiLetter (c : Char) : Bool :=
  ('a' ≤ c && c ≤ 'z') || ('A' ≤ c && c ≤ 'Z')

/-- Consume a literal from the front of the input, or fail. -/
def stripLit (lit s : List Char) : Option (List Char) :=
  if lit.isPrefixOf s then some (s.drop lit.length) else none

/-- The backtracking candidates of a greedy `cls*`: all splits
`(s.take k, s.drop k)` with `k` running from the maximal run length down
to `0` (longest match attempted first, as the regex engine does). -/
def starSplits (cls : Char → Bool) (s : List Char) : List (List Char × List Char) :=
  ((List.range ((s.takeWhile cls).length + 1)).reverse).map fun k => (s.take k, s.drop k)

/-- The backtracking candidates of a greedy `cls+`: like `starSplits` but
the empty match is not allowed. -/
def plusSplits (cls : Char → Bool) (s : List Char) : List (List Char × List Char) :=
  ((List.range ((s.takeWhile cls).length)).reverse).map fun k => (s.take (k + 1), s.drop (k + 1))

def codeChangeLit : List Char := "codeChange:".toList

def orgLit : List Char := "organisationalPressure".toList

/-- The inserted text of the replacement template. -/
def orgInsert : List Char := "organisationalPressure: 1,".toList

/-- The capture groups of a match of the `fix_tests.py` pattern, plus the
remaining input after the match. -/
structure ReMatch where
  g1 : List Char
  g2 : List Char
  g3 : Char
  rest : List Char
  deriving Repr, DecidableEq

/-- Attempt to match `(codeChange:\s*[^,\n]+,)(\s*)((?!organisationalPressure)[a-zA-Z])`
at the start of `s`, with the backtracking order of the Python engine:
each greedy sub-pattern tries its longest extent first. -/
def matchAt (s : List Char) : Option ReMatch :=
  match stripLit codeChangeLit s with
  | none => none
  | some s1 =>
    (starSplits isPySpace s1).findSome? fun p1 =>
      (plusSplits notCommaNl p1.2).findSome? fun p2 =>
        match stripLit [','] p2.2 with
        | none => none
        | some s4 =>
          (starSplits isPySpace s4).findSome? fun p3 =>
            match p3.2 with
            | [] => none
            | c :: rest =>
              if isAsciiLetter c && !(orgLit.isPrefixOf (c :: rest)) then
                some ⟨codeChangeLit ++ p1.1 ++ p2.1 ++ [','], p3.1, c, rest⟩
              else none

/-- The left-to-right scan of `re.sub`: at each position try the pattern;
on a match emit `\1\2organisationalPressure: 1,\2\3` and continue after the
match, otherwise emit the current character and move on.  Fuel decreases by
one per step while at least one character is consumed, so `fuel = s.length`
always suffices. -/
def subScanF : Nat → List Char → List Char
  | 0, s => s
  | fuel + 1, s =>
    match matchAt s with
    | some m => m.g1 ++ m.g2 ++ orgInsert ++ m.g2 ++ m.g3 :: subScanF fuel m.rest
    | none =>
      match s with
      | [] => []
      | c :: rest => c :: subScanF fuel rest

/-- `add_org_pressure` of `fix_tests.py`. -/
def add_org_pressure (content : List Char) : List Char :=
  subScanF content.length content

/-- An in-memory filesystem: an association list from path to content. -/
def FS := List (String × List Char)

def lookupFS : FS → String → Option (List Char)
  | [], _ => none
  | e :: t, p => if e.1 = p then some e.2 else lookupFS t p

def updateFS : FS → String → List Char → FS
  | [], p, c => [(p, c)]
  | e :: t, p, c => if e.1 = p then (p, c) :: t else e :: updateFS t p c

/-- The outcome of running one of the scripts: whether the process exits
with status zero, the final filesystem, and the printed lines in order. -/
structure ProcResult where
  exitZero : Bool
  fs : FS
  out : List String

def okLine (p : String) : String := "Fixed " ++ p

/-- Modelled `str(e)` for the caught exception on a missing file. -/
def fnfMsg (p : String) : String := "[Errno 2] No such file or directory: " ++ p

def errLine (p : String) : String := "Error fixing " ++ p ++ ": " ++ fnfMsg p

/-- One iteration of the `for filepath in files_to_fix` loop of
`fix_borders.py`: read, substitute, write and report, with the whole body
wrapped in try/except so a missing file only produces an error line. -/
def styleStep (acc : FS × List String) (path : String) : FS × List String :=
  match lookupFS acc.1 path with
  | none => (acc.1, acc.2 ++ [errLine path])
  | some content => (updateFS acc.1 path (applyReplacements content), acc.2 ++ [okLine path])

/-- The whole run of `fix_borders.py`: every path of the fixed list is
processed in order, then `Done!` is printed; the exit status is zero. -/
def runStyleRewriter (fs : FS) : ProcResult :=
  let r := files_to_fix.foldl styleStep (fs, [])
  ⟨true, r.1, r.2 ++ ["Done!"]⟩

/-- The whole run of `fix_tests.py` given `sys.argv`: index `1` of `argv`
is read (an uncaught index error kills the process when absent), the file
is read (an uncaught error kills the process when missing), transformed,
written back, and one line is printed. -/
def runFieldInserter (argv : List String) (fs : FS) : ProcResult :=
  match argv.get? 1 with
  | none => ⟨false, fs, []⟩
  | some path =>
    match lookupFS fs path with
    | none => ⟨false, fs, []⟩
    | some content => ⟨true, updateFS fs path (add_org_pressure content), [okLine path]⟩

/-- Claim C1 (status: code_bug).  The claim says an input containing
`hover:shadow-brutal` is rewritten to `hover:shadow-md`, never to
`hover:shadow-sm`.  The code does the opposite: rule 7 (`shadow-brutal` to
`shadow-sm`) is listed before rule 8 (`hover:shadow-brutal` to
`hover:shadow-md`), so rule 7 consumes the `shadow-brutal` inside every
`hover:shadow-brutal` first and rule 8 can never fire.  This theorem
evaluates the ten substitutions at the failing input. -/
theorem C1_hover_shadow_brutal_becomes_sm :
    applyReplacements "hover:shadow-brutal".toList = "hover:shadow-sm".toList := by
  decide

/-- Claim C5 (status: confirmed).  `add_org_pressure` on
`codeChange: "refactor", severity: 2` inserts the field after the sentinel. -/
theorem C5_insertion_example :
    add_org_pressure "codeChange: \"refactor\", severity: 2".toList
      = "codeChange: \"refactor\", organisationalPressure: 1, severity: 2".toList := by
  decide

/-- Claim C6 (status: confirmed).  `add_org_pressure` leaves the already
transformed documented text unchanged (idempotence of the documented case). -/
theorem C6_idempotent_documented_case :
    add_org_pressure "codeChange: \"refactor\", organisationalPressure: 1, severity: 2".toList
      = "codeChange: \"refactor\", organisationalPressure: 1, severity: 2".toList := by
  decide

/-- Claim C7 (status: confirmed).  With the existing field on the next
line, the whitespace-tolerant `\s*` plus the lookahead suppress the
insertion across the line break: the text is left unchanged. -/
theorem C7_no_duplicate_across_newline :
    add_org_pressure "codeChange: \"x\",\norganisationalPressure: 1,".toList
      = "codeChange: \"x\",\norganisationalPressure: 1,".toList := by
  decide

/-- Claim C10 (status: confirmed).  When the `codeChange` value itself
contains a comma followed by whitespace and a letter, the value pattern
`[^,\n]+` stops at the first comma, so the field is inserted inside the
value right after that comma instead of after the whole assignment. -/
theorem C10_insertion_inside_value :
    add_org_pressure "codeChange: f(a, b), severity: 2".toList
      = "codeChange: f(a, organisationalPressure: 1, b), severity: 2".toList := by
  decide

/-- Claim C8 (status: confirmed).  Run with no command-line argument
(`argv` holds only the interpreter-supplied script name), `fix_tests.py`
dies on the unhandled index error from `sys.argv[1]` before opening any
file: the exit status is non-zero, the filesystem is untouched and nothing
is printed. -/
theorem C8_no_argument_aborts (prog : String) (fs : FS) :
    runFieldInserter [prog] fs = ⟨false, fs, []⟩ := rfl

/-- Claim C9 (status: confirmed).  Whenever the pattern matches, the
replacement template `\1\2organisationalPressure: 1,\2\3` emits the
captured inter-field whitespace (group 2) twice: once before the inserted
field and once again before the following field. -/
theorem C9_group2_emitted_twice (s : List Char) (m : ReMatch) (h : matchAt s = some m) :
    ∃ t, add_org_pressure s = m.g1 ++ m.g2 ++ orgInsert ++ m.g2 ++ m.g3 :: t := by
  cases s with
  | nil =>
    rw [show matchAt [] = none from by decide] at h
    exact Option.noConfusion h
  | cons c cs =>
    refine ⟨subScanF cs.length m.rest, ?_⟩
    simp [add_org_pressure, subScanF, h]

/-- Witness for C9 at a concrete input whose separator is a newline plus
indentation: the separator is duplicated around the inserted field. -/
theorem C9_witness :
    ∃ t, add_org_pressure "codeChange: 1,\n  severity: 2".toList
      = "codeChange: 1,".toList ++ "\n  ".toList ++ orgInsert ++ "\n  ".toList ++ 's' :: t :=
  C9_group2_emitted_twice _ ⟨"codeChange: 1,".toList, "\n  ".toList, 's', "everity: 2".toList⟩
    (by decide)

theorem lookupFS_updateFS_ne (fs : FS) (q p : String) (c : List Char) (hne : q ≠ p) :
    lookupFS (updateFS fs q c) p = lookupFS fs p := by
  induction fs with
  | nil => simp [updateFS, lookupFS, hne]
  | cons e t ih =>
    by_cases h1 : e.1 = q
    · simp [updateFS, lookupFS, h1, hne]
    · simp only [updateFS, lookupFS, if_neg h1]
      by_cases h2 : e.1 = p
      · simp [lookupFS, h2]
      · simp [lookupFS, h2, ih]

theorem styleStep_miss (acc : FS × List String) (path : String)
    (h : lookupFS acc.1 path = none) :
    styleStep acc path = (acc.1, acc.2 ++ [errLine path]) := by
  simp [styleStep, h]

theorem styleStep_preserves_none (acc : FS × List String) (path q : String)
    (hne : path ≠ q) (h : lookupFS acc.1 q = none) :
    lookupFS (styleStep acc path).1 q = none := by
  cases hl : lookupFS acc.1 path with
  | none => simpa [styleStep, hl] using h
  | some content => simpa [styleStep, hl, lookupFS_updateFS_ne _ _ _ _ hne] using h

theorem foldl_styleStep_spec (paths : List String) (acc : FS × List String) :
    ∃ lines : List String,
      (paths.foldl styleStep acc).2 = acc.2 ++ lines ∧
      lines.length = paths.length ∧
      ∀ q ∈ paths, okLine q ∈ lines ∨ errLine q ∈ lines := by
  induction paths generalizing acc with
  | nil => exact ⟨[], by simp⟩
  | cons path rest ih =>
    obtain ⟨l, hl, hk⟩ :
        ∃ l, (styleStep acc path).2 = acc.2 ++ [l] ∧ (l = okLine path ∨ l = errLine path) := by
      cases h : lookupFS acc.1 path with
      | none => exact ⟨errLine path, by simp [styleStep, h]⟩
      | some content => exact ⟨okLine path, by simp [styleStep, h]⟩
    obtain ⟨lines, hlines, hlen, hmem⟩ := ih (styleStep acc path)
    refine ⟨l :: lines, ?_, by simp [hlen], ?_⟩
    · simp [hlines, hl]
    · intro q hq
      rcases List.mem_cons.1 hq with rfl | hq'
      · rcases hk with rfl | rfl
        · exact Or.inl (List.mem_cons_self _ _)
        · exact Or.inr (List.mem_cons_self _ _)
      · rcases hmem q hq' with h | h
        · exact Or.inl (List.mem_cons_of_mem _ h)
        · exact Or.inr (List.mem_cons_of_mem _ h)

theorem foldl_styleStep_err (paths : List String) (acc : FS × List String) (p : String)
    (hp : p ∈ paths) (hmiss : lookupFS acc.1 p = none) :
    errLine p ∈ (paths.foldl styleStep acc).2 := by
  induction paths generalizing acc with
  | nil => cases hp
  | cons path rest ih =>
    by_cases hpp : p = path
    · subst hpp
      rw [List.foldl_cons, styleStep_miss acc p hmiss]
      obtain ⟨lines, hlines, -, -⟩ := foldl_styleStep_spec rest (acc.1, acc.2 ++ [errLine p])
      rw [hlines]
      exact List.mem_append_left _ (List.mem_append_right _ (List.mem_singleton_self _))
    · rcases List.mem_cons.1 hp with rfl | hp'
      · exact absurd rfl hpp
      · rw [List.foldl_cons]
        exact ih (styleStep acc path) hp'
          (styleStep_preserves_none acc path p (fun h => hpp h.symm) hmiss)

/-- Claim C3 (status: confirmed).  If some file of the fixed list is
missing, `fix_borders.py` catches the error instead of propagating it: an
error line naming that path and the message is printed, every path of the
list still gets exactly one report line, `Done!` is printed last, and the
exit status is zero. -/
theorem C3_missing_file_isolated (fs : FS) (p : String)
    (hp : p ∈ files_to_fix) (hmiss : lookupFS fs p = none) :
    (runStyleRewriter fs).exitZero = true ∧
    errLine p ∈ (runStyleRewriter fs).out ∧
    (runStyleRewriter fs).out.getLast? = some "Done!" ∧
    (runStyleRewriter fs).out.length = files_to_fix.length + 1 ∧
    ∀ q ∈ files_to_fix, okLine q ∈ (runStyleRewriter fs).out ∨ errLine q ∈ (runStyleRewriter fs).out := by
  obtain ⟨lines, hlines, hlen, hmem⟩ := foldl_styleStep_spec files_to_fix (fs, [])
  have herr := foldl_styleStep_err files_to_fix (fs, []) p hp hmiss
  refine ⟨rfl, ?_, ?_, ?_, ?_⟩
  · exact List.mem_append_left _ herr
  · exact List.getLast?_concat _
  · simp [runStyleRewriter, hlines, hlen]
  · intro q hq
    rcases hmem q hq with h | h
    · exact Or.inl (List.mem_append_left _ (by simp [runStyleRewriter, hlines, h]))
    · exact Or.inr (List.mem_append_left _ (by simp [runStyleRewriter, hlines, h]))

/-- Witness for C3: with an empty filesystem every listed file is missing;
instantiating at the first path shows the error line, the final `Done!`,
the per-file lines and the zero exit status. -/
theorem C3_witness :
    ("src/components/TestCaseRowNormal.tsx" ∈ files_to_fix ∧
      lookupFS ([] : FS) "src/components/TestCaseRowNormal.tsx" = none) ∧
    ((runStyleRewriter ([] : FS)).exitZero = true ∧
      errLine "src/components/TestCaseRowNormal.tsx" ∈ (runStyleRewriter ([] : FS)).out ∧
      (runStyleRewriter ([] : FS)).out.getLast? = some "Done!" ∧
      (runStyleRewriter ([] : FS)).out.length = files_to_fix.length + 1 ∧
      ∀ q ∈ files_to_fix,
        okLine q ∈ (runStyleRewriter ([] : FS)).out ∨ errLine q ∈ (runStyleRewriter ([] : FS)).out) :=
  ⟨⟨by decide, rfl⟩, C3_missing_file_isolated ([] : FS) _ (by decide) rfl⟩

theorem mem_starSplits {cls : Char → Bool} {s : List Char} {x : List Char × List Char} :
    x ∈ starSplits cls s ↔ ∃ k, k ≤ (s.takeWhile cls).length ∧ x = (s.take k, s.drop k) := by
  simp only [starSplits, List.mem_map, List.mem_reverse, List.mem_range, Nat.lt_succ_iff]
  constructor
  · rintro ⟨k, hk, rfl⟩; exact ⟨k, hk, rfl⟩
  · rintro ⟨k, hk, rfl⟩; exact ⟨k, hk, rfl⟩

theorem mem_plusSplits {cls : Char → Bool} {s : List Char} {x : List Char × List Char} :
    x ∈ plusSplits cls s ↔
      ∃ k, k < (s.takeWhile cls).length ∧ x = (s.take (k + 1), s.drop (k + 1)) := by
  simp only [plusSplits, List.mem_map, List.mem_reverse, List.mem_range]
  constructor
  · rintro ⟨k, hk, rfl⟩; exact ⟨k, hk, rfl⟩
  · rintro ⟨k, hk, rfl⟩; exact ⟨k, hk, rfl⟩

theorem takeWhile_append_stop {cls : Char → Bool} {u : List Char} {d : Char}
    (hu : ∀ x ∈ u, cls x = true) (hd : cls d = false) (t : List Char) :
    (u ++ d :: t).takeWhile cls = u := by
  rw [List.takeWhile_append_of_pos hu, List.takeWhile_cons, hd]
  simp

theorem takeWhile_append_le (cls : Char → Bool) (u : List Char) {d : Char}
    (hd : cls d = false) (t : List Char) :
    ((u ++ d :: t).takeWhile cls).length ≤ u.length := by
  induction u with
  | nil => simp [List.takeWhile_cons, hd]
  | cons x u' ih =>
    by_cases h : cls x = true
    · simpa [List.takeWhile_cons, h] using ih
    · simp [List.takeWhile_cons, Bool.eq_false_iff.2 (fun hx => h hx)]

theorem stripLit_append (lit t : List Char) : stripLit lit (lit ++ t) = some t := by
  have h : lit.isPrefixOf (lit ++ t) = true := List.isPrefixOf_iff_prefix.2 ⟨t, rfl⟩
  simp [stripLit, h, List.drop_left]

theorem take_append_le {u x : List Char} {n : Nat} (h : n ≤ u.length) :
    (u ++ x).take n = u.take n := by
  rw [List.take_append_eq_append_take, Nat.sub_eq_zero_of_le h, List.take_zero, List.append_nil]

theorem drop_append_le {u x : List Char} {n : Nat} (h : n ≤ u.length) :
    (u ++ x).drop n = u.drop n ++ x := by
  rw [List.drop_append_eq_append_drop, Nat.sub_eq_zero_of_le h, List.drop_zero]

theorem pyspace_not_letter {c : Char} (h : isPySpace c = true) : isAsciiLetter c = false := by
  simp only [isPySpace, Bool.or_eq_true, decide_eq_true_eq] at h
  rcases h with ((((rfl | rfl) | rfl) | rfl) | rfl) | rfl <;> decide

/-- Claim C2 (status: confirmed).  At a sentinel occurrence
`codeChange: <value>,` (value nonempty, free of commas and newlines)
followed by whitespace and then the next non-whitespace character `c`,
the pattern of `fix_tests.py` matches -- i.e. insertion is triggered --
exactly when `c` is an ASCII letter and the text at `c` does not literally
begin with `organisationalPressure`; so insertion is suppressed exactly
when `c` is not a letter or the target field name literally follows, and
any other alphabetic field name still triggers insertion. -/
theorem C2_suppression_iff (v w rest : List Char) (c : Char)
    (hv : v ≠ []) (hvc : ∀ x ∈ v, notCommaNl x = true)
    (hw : ∀ x ∈ w, isPySpace x = true) (hc : isPySpace c = false) :
    (matchAt (codeChangeLit ++ v ++ [','] ++ w ++ c :: rest)).isSome
      ↔ (isAsciiLetter c = true ∧ orgLit.isPrefixOf (c :: rest) = false) := by
  rw [show (codeChangeLit ++ v ++ [','] ++ w ++ c :: rest)
      = codeChangeLit ++ (v ++ ',' :: (w ++ c :: rest)) from by simp]
  have hstrip := stripLit_append codeChangeLit (v ++ ',' :: (w ++ c :: rest))
  have hstrip2 : stripLit [','] (',' :: (w ++ c :: rest)) = some (w ++ c :: rest) :=
    stripLit_append [','] (w ++ c :: rest)
  simp only [matchAt, hstrip, List.findSome?_isSome_iff]
  constructor
  · rintro ⟨x1, hx1m, hx1⟩
    obtain ⟨k1, hk1, rfl⟩ := mem_starSplits.1 hx1m
    have hk1v : k1 ≤ v.length := le_trans hk1 (takeWhile_append_le _ v (by decide) _)
    simp only [drop_append_le hk1v] at hx1
    obtain ⟨x2, hx2m, hx2⟩ := hx1
    obtain ⟨k2, hk2, rfl⟩ := mem_plusSplits.1 hx2m
    have hk21 : k2 + 1 ≤ (v.drop k1).length :=
      lt_of_lt_of_le hk2 (takeWhile_append_le _ _ (by decide) _)
    simp only [drop_append_le hk21, List.drop_drop] at hx2
    cases hvd : v.drop (k1 + (k2 + 1)) with
    | cons x0 vr =>
      exfalso
      rw [hvd] at hx2
      have hx0 : x0 ∈ v := List.drop_subset _ _ (by rw [hvd]; exact List.mem_cons_self x0 vr)
      have hx0c : notCommaNl x0 = true := hvc x0 hx0
      have hne : (',' == x0) = false := by
        simp only [notCommaNl, Bool.not_eq_true', Bool.or_eq_false_iff,
          decide_eq_false_iff_not] at hx0c
        simpa [beq_iff_eq] using fun h => hx0c.1 h.symm
      have hnostrip : stripLit [','] (x0 :: (vr ++ ',' :: (w ++ c :: rest))) = none := by
        simp [stripLit, List.isPrefixOf, hne]
      simp [hnostrip] at hx2
    | nil =>
      rw [hvd, List.nil_append, hstrip2] at hx2
      simp only [List.findSome?_isSome_iff] at hx2
      obtain ⟨x3, hx3m, hx3⟩ := hx2
      obtain ⟨k3, hk3, rfl⟩ := mem_starSplits.1 hx3m
      rw [takeWhile_append_stop hw hc] at hk3
      simp only [drop_append_le hk3] at hx3
      cases hwd : w.drop k3 with
      | cons d wr =>
        exfalso
        rw [hwd] at hx3
        have hd : d ∈ w := List.drop_subset _ _ (by rw [hwd]; exact List.mem_cons_self d wr)
        have hdl : isAsciiLetter d = false := pyspace_not_letter (hw d hd)
        simp [hdl] at hx3
      | nil =>
        rw [hwd, List.nil_append] at hx3
        by_cases hcond : (isAsciiLetter c && !orgLit.isPrefixOf (c :: rest)) = true
        · obtain ⟨h1, h2⟩ := Bool.and_eq_true_iff.1 hcond
          exact ⟨h1, by simpa using h2⟩
        · exfalso
          simp only [hcond] at hx3
          simp at hx3
  · rintro ⟨hletter, hnorg⟩
    refine ⟨(List.take 0 (v ++ ',' :: (w ++ c :: rest)), List.drop 0 (v ++ ',' :: (w ++ c :: rest))),
      mem_starSplits.2 ⟨0, Nat.zero_le _, rfl⟩, ?_⟩
    simp only [List.take_zero, List.drop_zero]
    have hvl : 0 < v.length := List.length_pos.2 hv
    refine ⟨(v, ',' :: (w ++ c :: rest)), ?_, ?_⟩
    · apply mem_plusSplits.2
      refine ⟨v.length - 1, ?_, ?_⟩
      · rw [takeWhile_append_stop hvc (by decide)]
        omega
      · have hlen : v.length - 1 + 1 = v.length := Nat.succ_pred_eq_of_pos hvl
        rw [hlen, List.take_left, List.drop_left]
    · simp only [hstrip2, List.findSome?_isSome_iff]
      refine ⟨(w, c :: rest), ?_, ?_⟩
      · apply mem_starSplits.2
        refine ⟨w.length, ?_, ?_⟩
        · rw [takeWhile_append_stop hw hc]
        · rw [List.take_left, List.drop_left]
      · simp [hletter, hnorg]

/-- Witness for C2 at a concrete sentinel: value ` 5`, one following
space, next field `severity`, whose initial letter triggers insertion. -/
theorem C2_witness :
    (" 5".toList ≠ ([] : List Char) ∧ (∀ x ∈ " 5".toList, notCommaNl x = true) ∧
      (∀ x ∈ [' '], isPySpace x = true) ∧ isPySpace 's' = false) ∧
    ((matchAt (codeChangeLit ++ " 5".toList ++ [','] ++ [' '] ++ 's' :: "everity".toList)).isSome
      ↔ (isAsciiLetter 's' = true ∧ orgLit.isPrefixOf ('s' :: "everity".toList) = false)) :=
  ⟨⟨by decide, by decide, by decide, rfl⟩,
    C2_suppression_iff " 5".toList [' '] "everity".toList 's'
      (by decide) (by decide) (by decide) rfl⟩

/-- `pat` occurs as a contiguous substring of `s` (decidable form). -/
def containsSub (pat s : List Char) : Bool :=
  (List.range (s.length + 1)).any fun i => pat.isPrefixOf (s.drop i)

/-- `pat` occurs as a contiguous substring of `s` (decomposition form). -/
def Occ (pat s : List Char) : Prop := ∃ a b, s = a ++ pat ++ b

theorem occ_iff_drop {q s : List Char} : Occ q s ↔ ∃ i, i ≤ s.length ∧ q <+: s.drop i := by
  constructor
  · rintro ⟨a, b, rfl⟩
    refine ⟨a.length, by simp, ?_⟩
    rw [List.append_assoc, List.drop_left]
    exact List.prefix_append q b
  · rintro ⟨i, hi, ⟨t, ht⟩⟩
    exact ⟨s.take i, t, by rw [List.append_assoc, ht, List.take_append_drop]⟩

theorem containsSub_iff {pat s : List Char} : containsSub pat s = true ↔ Occ pat s := by
  rw [occ_iff_drop]
  simp only [containsSub, List.any_eq_true, List.mem_range, Nat.lt_succ_iff,
    List.isPrefixOf_iff_prefix]

theorem prefix_occ {q s : List Char} (h : q <+: s) : Occ q s := by
  obtain ⟨t, ht⟩ := h
  exact ⟨[], t, ht.symm⟩

theorem Occ.append_left {q s : List Char} (h : Occ q s) (u : List Char) : Occ q (u ++ s) := by
  obtain ⟨a, b, rfl⟩ := h
  exact ⟨u ++ a, b, by simp⟩

theorem Occ.cons {q s : List Char} (h : Occ q s) (c : Char) : Occ q (c :: s) := by
  obtain ⟨a, b, rfl⟩ := h
  exact ⟨c :: a, b, by simp⟩

theorem Occ.of_drop {q s : List Char} {n : Nat} (h : Occ q (s.drop n)) : Occ q s := by
  have h2 := h.append_left (s.take n)
  rwa [List.take_append_drop] at h2

theorem occ_cons_elim {q s : List Char} {c : Char} (h : Occ q (c :: s)) :
    q <+: c :: s ∨ Occ q s := by
  obtain ⟨a, b, heq⟩ := h
  cases a with
  | nil => exact Or.inl ⟨b, by simpa using heq.symm⟩
  | cons a0 a' =>
    rw [List.cons_append, List.cons_append] at heq
    injection heq with h1 h2
    exact Or.inr ⟨a', b, by simpa using h2⟩

theorem occ_append_cases {q x y : List Char} (h : Occ q (x ++ y)) :
    (∃ i, i < x.length ∧ q <+: x.drop i ++ y) ∨ Occ q y := by
  obtain ⟨i, hi, hp⟩ := occ_iff_drop.1 h
  by_cases hix : i < x.length
  · exact Or.inl ⟨i, hix, by rwa [drop_append_le (le_of_lt hix)] at hp⟩
  · push_neg at hix
    refine Or.inr (occ_iff_drop.2 ⟨i - x.length, ?_, ?_⟩)
    · simp only [List.length_append] at hi
      omega
    · rwa [List.drop_append_eq_append_drop, List.drop_eq_nil_of_le hix, List.nil_append] at hp

theorem not_occ_nil {q : List Char} (hq : q ≠ []) : ¬ Occ q [] := by
  rintro ⟨a, b, heq⟩
  rcases List.append_eq_nil.1 heq.symm with ⟨h1, h2⟩
  exact hq (List.append_eq_nil.1 h1).2

theorem isPrefixOf_nil_eq_false {pat : List Char} (hp : pat ≠ []) :
    pat.isPrefixOf ([] : List Char) = false := by
  cases pat with
  | nil => exact absurd rfl hp
  | cons c t => rfl

theorem replaceAllF_irrel (pat rep : List Char) (hp : pat ≠ []) :
    ∀ f1 f2 s, s.length ≤ f1 → s.length ≤ f2 →
      replaceAllF pat rep f1 s = replaceAllF pat rep f2 s := by
  intro f1
  induction f1 with
  | zero =>
    intro f2 s hs1 _
    have hnil : s = [] := List.eq_nil_of_length_eq_zero (Nat.le_zero.1 hs1)
    subst hnil
    cases f2 with
    | zero => rfl
    | succ f2' => simp [replaceAllF, isPrefixOf_nil_eq_false hp]
  | succ f1' ih =>
    intro f2 s hs1 hs2
    cases s with
    | nil =>
      cases f2 with
      | zero => simp [replaceAllF, isPrefixOf_nil_eq_false hp]
      | succ f2' => simp [replaceAllF, isPrefixOf_nil_eq_false hp]
    | cons c t =>
      cases f2 with
      | zero => exact absurd hs2 (by simp)
      | succ f2' =>
        have hpat1 : 1 ≤ pat.length := by
          cases pat with
          | nil => exact absurd rfl hp
          | cons _ _ => simp
        by_cases hm : pat.isPrefixOf (c :: t) = true
        · have hlenpat : pat.length ≤ (c :: t).length :=
            (List.isPrefixOf_iff_prefix.1 hm).length_le
          have hd1 : ((c :: t).drop pat.length).length ≤ f1' := by
            simp only [List.length_drop, List.length_cons] at *
            omega
          have hd2 : ((c :: t).drop pat.length).length ≤ f2' := by
            simp only [List.length_drop, List.length_cons] at *
            omega
          simp [replaceAllF, hm, ih f2' _ hd1 hd2]
        · have ht1 : t.length ≤ f1' := by simp at hs1; omega
          have ht2 : t.length ≤ f2' := by simp at hs2; omega
          simp [replaceAllF, hm, ih f2' _ ht1 ht2]

theorem replaceAll_nil (pat rep : List Char) : replaceAll pat rep [] = [] := rfl

theorem replaceAll_eq (pat rep : List Char) (hp : pat ≠ []) (s : List Char) :
    replaceAll pat rep s =
      if pat.isPrefixOf s then rep ++ replaceAll pat rep (s.drop pat.length)
      else
        match s with
        | [] => []
        | c :: t => c :: replaceAll pat rep t := by
  cases s with
  | nil => simp [replaceAll, replaceAllF, isPrefixOf_nil_eq_false hp]
  | cons c t =>
    have hpat1 : 1 ≤ pat.length := by
      cases pat with
      | nil => exact absurd rfl hp
      | cons _ _ => simp
    by_cases hm : pat.isPrefixOf (c :: t) = true
    · have hlenpat : pat.length ≤ (c :: t).length :=
        (List.isPrefixOf_iff_prefix.1 hm).length_le
      have hirr := replaceAllF_irrel pat rep hp t.length ((c :: t).drop pat.length).length
        ((c :: t).drop pat.length) (by simp [List.length_drop] at *; omega) le_rfl
      simp only [replaceAll, List.length_cons, replaceAllF, hm, if_true]
      rw [hirr]
    · simp [replaceAll, replaceAllF, hm]

theorem prefix_append_cases {q u x : List Char} (h : q <+: u ++ x) :
    (q.length ≤ u.length ∧ q <+: u) ∨
      (u.length ≤ q.length ∧ u <+: q ∧ q.drop u.length <+: x) := by
  rcases Nat.le_total q.length u.length with hle | hle
  · refine Or.inl ⟨hle, ?_⟩
    have hq : q = (u ++ x).take q.length := List.prefix_iff_eq_take.1 h
    rw [take_append_le hle] at hq
    exact hq ▸ List.take_prefix _ _
  · obtain ⟨t, ht⟩ := h
    refine Or.inr ⟨hle, ?_, ?_⟩
    · have hu : u = (u ++ x).take u.length := by rw [List.take_left]
      rw [← ht, take_append_le hle] at hu
      exact hu ▸ List.take_prefix _ _
    · refine ⟨t, ?_⟩
      have hd := congrArg (List.drop u.length) ht
      rwa [drop_append_le hle, List.drop_left] at hd

theorem prefix_trans_drop {x y s : List Char} (hx : x <+: s) (hy : y <+: s.drop x.length) :
    x ++ y <+: s := by
  obtain ⟨t, ht⟩ := hx
  obtain ⟨r, hr⟩ := hy
  have htd : s.drop x.length = t := by rw [← ht, List.drop_left]
  refine ⟨r, ?_⟩
  rw [List.append_assoc, hr, htd, ht]

theorem prefix_replaceAll_cases (pat rep : List Char) (hp : pat ≠ []) :
    ∀ s q, q <+: replaceAll pat rep s →
      q <+: s ∨ ∃ k, k < q.length ∧ q.take k = s.take k ∧ pat <+: s.drop k ∧
        (q.drop k <+: rep ∨ rep <+: q.drop k) := by
  intro s
  induction s with
  | nil =>
    intro q hq
    rw [replaceAll_nil] at hq
    exact Or.inl hq
  | cons c t ih =>
    intro q hq
    rw [replaceAll_eq _ _ hp] at hq
    by_cases hm : pat.isPrefixOf (c :: t) = true
    · rw [if_pos hm] at hq
      rcases eq_or_ne q [] with rfl | hqne
      · exact Or.inl ⟨_, rfl⟩
      · rcases prefix_append_cases hq with ⟨hlen, hqrep⟩ | ⟨hlen, hrepq, hdrop⟩
        · exact Or.inr ⟨0, List.length_pos.2 hqne, rfl,
            by simpa using List.isPrefixOf_iff_prefix.1 hm, Or.inl (by simpa using hqrep)⟩
        · exact Or.inr ⟨0, List.length_pos.2 hqne, rfl,
            by simpa using List.isPrefixOf_iff_prefix.1 hm, Or.inr (by simpa using hrepq)⟩
    · rw [if_neg hm] at hq
      cases q with
      | nil => exact Or.inl ⟨_, rfl⟩
      | cons q0 q' =>
        obtain ⟨rfl, hq'⟩ := List.cons_prefix_cons.1 hq
        rcases ih q' hq' with h | ⟨k, hk, htake, hpat, hor⟩
        · exact Or.inl (List.cons_prefix_cons.2 ⟨rfl, h⟩)
        · refine Or.inr ⟨k + 1, Nat.succ_lt_succ hk, ?_, ?_, ?_⟩
          · rw [List.take_succ_cons, List.take_succ_cons, htake]
          · rwa [List.drop_succ_cons]
          · rwa [List.drop_succ_cons]

theorem replaceAll_skip_run (pat rep : List Char) (hp : pat ≠ []) :
    ∀ n s, n ≤ s.length → (∀ j, j < n → ¬ pat <+: s.drop j) →
      replaceAll pat rep s = s.take n ++ replaceAll pat rep (s.drop n) := by
  intro n
  induction n with
  | zero => intro s _ _; simp
  | succ n' ih =>
    intro s hn hskip
    cases s with
    | nil => exact absurd hn (by simp)
    | cons c t =>
      have hm : pat.isPrefixOf (c :: t) = false := by
        rw [← Bool.not_eq_true, List.isPrefixOf_iff_prefix]
        simpa using hskip 0 (Nat.succ_pos n')
      rw [replaceAll_eq _ _ hp, hm]
      simp only [Bool.false_eq_true, if_false, List.take_succ_cons, List.drop_succ_cons,
        List.cons_append]
      rw [ih t (by simpa using hn) (fun j hj => by simpa using hskip (j + 1) (Nat.succ_lt_succ hj))]

theorem length_pos_of_ne_nil {l : List Char} (h : l ≠ []) : 1 ≤ l.length := by
  cases l with
  | nil => exact absurd rfl h
  | cons _ _ => simp

theorem replaceAll_no_pat (pat rep : List Char) (hp : pat ≠ [])
    (h1 : ¬ Occ pat rep)
    (h2 : ∀ i, i < rep.length → ¬ (rep.drop i <+: pat))
    (h3 : ∀ j, j < pat.length → 0 < j → ¬ (pat.drop j <+: rep) ∧ ¬ (rep <+: pat.drop j)) :
    ∀ s, ¬ Occ pat (replaceAll pat rep s) := by
  have main : ∀ n s, s.length ≤ n → ¬ Occ pat (replaceAll pat rep s) := by
    intro n
    induction n with
    | zero =>
      intro s hs
      rw [List.eq_nil_of_length_eq_zero (Nat.le_zero.1 hs), replaceAll_nil]
      exact not_occ_nil hp
    | succ n' ih =>
      intro s hs hocc
      cases s with
      | nil => exact not_occ_nil hp (by rwa [replaceAll_nil] at hocc)
      | cons c t =>
        rw [replaceAll_eq _ _ hp] at hocc
        by_cases hm : pat.isPrefixOf (c :: t) = true
        · rw [if_pos hm] at hocc
          rcases occ_append_cases hocc with ⟨i, hi, hpre⟩ | hocc'
          · rcases prefix_append_cases hpre with ⟨_, hq⟩ | ⟨_, _, _⟩
            · exact h1 (occ_iff_drop.2 ⟨i, le_of_lt hi, hq⟩)
            · rename_i hq _
              exact h2 i hi hq
          · have hlen : ((c :: t).drop pat.length).length ≤ n' := by
              have := length_pos_of_ne_nil hp
              simp only [List.length_drop, List.length_cons]
              simp only [List.length_cons] at hs
              omega
            exact ih _ hlen hocc'
        · rw [if_neg hm] at hocc
          rcases occ_cons_elim hocc with hpre | hocc'
          · cases pat with
            | nil => exact hp rfl
            | cons p0 p' =>
              obtain ⟨rfl, hp'⟩ := List.cons_prefix_cons.1 hpre
              rcases prefix_replaceAll_cases _ _ hp t p' hp' with h | ⟨k, hk, _, _, hor⟩
              · exact hm (List.isPrefixOf_iff_prefix.2 (List.cons_prefix_cons.2 ⟨rfl, h⟩))
              · have hj := h3 (k + 1)
                  (by simpa using Nat.succ_lt_succ hk) (Nat.succ_pos k)
                rw [List.drop_succ_cons] at hj
                rcases hor with h | h
                · exact hj.1 h
                · exact hj.2 h
          · exact ih t (by simpa using Nat.le_of_succ_le_succ (by simpa using hs)) hocc'
  intro s
  exact main s.length s le_rfl

theorem replaceAll_no_create (pat rep q : List Char) (hp : pat ≠ []) (hq : q ≠ [])
    (h1 : ¬ Occ q rep)
    (h2 : ∀ i, i < rep.length → ¬ (rep.drop i <+: q))
    (h3 : ∀ j, j < q.length → 0 < j → ¬ (q.drop j <+: rep) ∧ ¬ (rep <+: q.drop j)) :
    ∀ s, ¬ Occ q s → ¬ Occ q (replaceAll pat rep s) := by
  have main : ∀ n s, s.length ≤ n → ¬ Occ q s → ¬ Occ q (replaceAll pat rep s) := by
    intro n
    induction n with
    | zero =>
      intro s hs _
      rw [List.eq_nil_of_length_eq_zero (Nat.le_zero.1 hs), replaceAll_nil]
      exact not_occ_nil hq
    | succ n' ih =>
      intro s hs hno hocc
      cases s with
      | nil => exact not_occ_nil hq (by rwa [replaceAll_nil] at hocc)
      | cons c t =>
        rw [replaceAll_eq _ _ hp] at hocc
        by_cases hm : pat.isPrefixOf (c :: t) = true
        · rw [if_pos hm] at hocc
          rcases occ_append_cases hocc with ⟨i, hi, hpre⟩ | hocc'
          · rcases prefix_append_cases hpre with ⟨_, hqr⟩ | ⟨_, _, _⟩
            · exact h1 (occ_iff_drop.2 ⟨i, le_of_lt hi, hqr⟩)
            · rename_i hqr _
              exact h2 i hi hqr
          · have hlen : ((c :: t).drop pat.length).length ≤ n' := by
              have := length_pos_of_ne_nil hp
              simp only [List.length_drop, List.length_cons]
              simp only [List.length_cons] at hs
              omega
            exact ih _ hlen (fun ho => hno ho.of_drop) hocc'
        · rw [if_neg hm] at hocc
          rcases occ_cons_elim hocc with hpre | hocc'
          · cases q with
            | nil => exact hq rfl
            | cons q0 q' =>
              obtain ⟨rfl, hq'⟩ := List.cons_prefix_cons.1 hpre
              rcases prefix_replaceAll_cases _ _ hp t q' hq' with h | ⟨k, hk, _, _, hor⟩
              · exact hno (prefix_occ (List.cons_prefix_cons.2 ⟨rfl, h⟩))
              · have hj := h3 (k + 1)
                  (by simpa using Nat.succ_lt_succ hk) (Nat.succ_pos k)
                rw [List.drop_succ_cons] at hj
                rcases hor with h | h
                · exact hj.1 h
                · exact hj.2 h
          · exact ih t (by simpa using Nat.le_of_succ_le_succ (by simpa using hs))
              (fun ho => hno (ho.cons c)) hocc'
  intro s
  exact main s.length s le_rfl

theorem replaceAll_occ_rep (pat rep : List Char) (hp : pat ≠ []) :
    ∀ s, Occ pat s → Occ rep (replaceAll pat rep s) := by
  have main : ∀ n s, s.length ≤ n → Occ pat s → Occ rep (replaceAll pat rep s) := by
    intro n
    induction n with
    | zero =>
      intro s hs hocc
      rw [List.eq_nil_of_length_eq_zero (Nat.le_zero.1 hs)] at hocc
      exact absurd hocc (not_occ_nil hp)
    | succ n' ih =>
      intro s hs hocc
      cases s with
      | nil => exact absurd hocc (not_occ_nil hp)
      | cons c t =>
        rw [replaceAll_eq _ _ hp]
        by_cases hm : pat.isPrefixOf (c :: t) = true
        · rw [if_pos hm]
          exact ⟨[], replaceAll pat rep ((c :: t).drop pat.length), by simp⟩
        · rw [if_neg hm]
          obtain ⟨a, b, heq⟩ := hocc
          cases a with
          | nil =>
            exact absurd (List.isPrefixOf_iff_prefix.2 ⟨b, by simpa using heq.symm⟩) hm
          | cons a0 a' =>
            rw [List.cons_append, List.cons_append] at heq
            injection heq with h1 h2
            exact ((ih t (by simpa using Nat.le_of_succ_le_succ (by simpa using hs))
              ⟨a', b, h2⟩).cons c)
  intro s
  exact main s.length s le_rfl

theorem replaceAll_preserves (pat rep p : List Char) (hp : pat ≠ []) (hpn : p ≠ [])
    (h1 : ∀ j, j < pat.length → ¬ (pat.drop j <+: p) ∧ ¬ (p <+: pat.drop j))
    (h2 : ∀ m, m < p.length → 0 < m → ¬ (p.drop m <+: pat) ∧ ¬ (pat <+: p.drop m)) :
    ∀ s, Occ p s → Occ p (replaceAll pat rep s) := by
  have main : ∀ n s, s.length ≤ n → Occ p s → Occ p (replaceAll pat rep s) := by
    intro n
    induction n with
    | zero =>
      intro s hs hocc
      rw [List.eq_nil_of_length_eq_zero (Nat.le_zero.1 hs)] at hocc
      exact absurd hocc (not_occ_nil hpn)
    | succ n' ih =>
      intro s hs hocc
      cases s with
      | nil => exact absurd hocc (not_occ_nil hpn)
      | cons c t =>
        rw [replaceAll_eq _ _ hp]
        by_cases hm : pat.isPrefixOf (c :: t) = true
        · rw [if_pos hm]
          obtain ⟨a, b, heq⟩ := hocc
          have hpata : pat.length ≤ a.length := by
            by_contra hlt
            push_neg at hlt
            have hpre : pat <+: a ++ (p ++ b) := by
              rw [← List.append_assoc, ← heq]
              exact List.isPrefixOf_iff_prefix.1 hm
            rcases prefix_append_cases hpre with ⟨hl, _⟩ | ⟨_, _, hd⟩
            · omega
            · rcases prefix_append_cases hd with ⟨_, hq⟩ | ⟨_, hq, _⟩
              · exact (h1 a.length hlt).1 hq
              · exact (h1 a.length hlt).2 hq
          have hocc' : Occ p ((c :: t).drop pat.length) := by
            rw [heq, List.append_assoc, drop_append_le hpata]
            exact ⟨a.drop pat.length, b, by rw [List.append_assoc]⟩
          have hlen : ((c :: t).drop pat.length).length ≤ n' := by
            have := length_pos_of_ne_nil hp
            simp only [List.length_drop, List.length_cons]
            simp only [List.length_cons] at hs
            omega
          exact (ih _ hlen hocc').append_left rep
        · rw [if_neg hm]
          obtain ⟨a, b, heq⟩ := hocc
          cases a with
          | cons a0 a' =>
            rw [List.cons_append, List.cons_append] at heq
            injection heq with hh1 hh2
            exact ((ih t (by simpa using Nat.le_of_succ_le_succ (by simpa using hs))
              ⟨a', b, hh2⟩).cons c)
          | nil =>
            rw [List.nil_append] at heq
            cases p with
            | nil => exact absurd rfl hpn
            | cons p0 p' =>
              rw [List.cons_append] at heq
              injection heq with hh1 hh2
              subst hh1
              have hskip : ∀ j, j < p'.length → ¬ pat <+: t.drop j := by
                intro j hj hpre
                rw [hh2, drop_append_le (le_of_lt hj)] at hpre
                have hm2 := h2 (j + 1) (by simp only [List.length_cons]; omega) (Nat.succ_pos j)
                rw [List.drop_succ_cons] at hm2
                rcases prefix_append_cases hpre with ⟨_, hq⟩ | ⟨_, hq, _⟩
                · exact hm2.2 hq
                · exact hm2.1 hq
              have hrun := replaceAll_skip_run pat rep hp p'.length t
                (by rw [hh2]; simp) hskip
              show Occ (c :: p') (c :: replaceAll pat rep t)
              rw [hrun, hh2, take_append_le le_rfl, drop_append_le le_rfl,
                List.take_length, List.drop_length, List.nil_append]
              exact ⟨[], replaceAll pat rep b, by simp⟩
  intro s
  exact main s.length s le_rfl

theorem replaceAll_rule7_no_ssl :
    ∀ s, ¬ Occ "shadow-brutal-lg".toList s → ¬ Occ "shadow-sm-lg".toList s →
      ¬ Occ "shadow-sm-lg".toList
        (replaceAll "shadow-brutal".toList "shadow-sm".toList s) := by
  have main : ∀ n s, s.length ≤ n → ¬ Occ "shadow-brutal-lg".toList s →
      ¬ Occ "shadow-sm-lg".toList s →
      ¬ Occ "shadow-sm-lg".toList
        (replaceAll "shadow-brutal".toList "shadow-sm".toList s) := by
    intro n
    induction n with
    | zero =>
      intro s hs _ _
      rw [List.eq_nil_of_length_eq_zero (Nat.le_zero.1 hs), replaceAll_nil]
      apply not_occ_nil
      decide
    | succ n' ih =>
      intro s hs hsbl hssl hocc
      cases s with
      | nil =>
        exact @not_occ_nil "shadow-sm-lg".toList (by decide)
          (by rwa [replaceAll_nil] at hocc)
      | cons c t =>
        rw [replaceAll_eq _ _ (by decide)] at hocc
        by_cases hm : ("shadow-brutal".toList).isPrefixOf (c :: t) = true
        · rw [if_pos hm] at hocc
          rcases occ_append_cases hocc with ⟨i, hi, hpre⟩ | hocc'
          · have h9 : ("shadow-sm".toList).length = 9 := by decide
            rw [h9] at hi
            rcases prefix_append_cases hpre with ⟨hl, _⟩ | ⟨_, hq, hd⟩
            · rw [List.length_drop, h9] at hl
              have h12 : ("shadow-sm-lg".toList).length = 12 := by decide
              omega
            · have hi0 : i = 0 := by
                by_contra hne
                have hdec : ∀ i', i' < 9 → i' ≠ 0 →
                    ¬ ("shadow-sm".toList.drop i' <+: "shadow-sm-lg".toList) := by decide
                exact hdec i hi hne hq
              subst hi0
              have hd' : "-lg".toList <+:
                  replaceAll "shadow-brutal".toList "shadow-sm".toList
                    ((c :: t).drop ("shadow-brutal".toList).length) := hd
              rcases prefix_replaceAll_cases _ _ (by decide) _ _ hd' with
                h | ⟨k, hk, _, _, hor⟩
              · have hsb : "shadow-brutal".toList <+: c :: t :=
                  List.isPrefixOf_iff_prefix.1 hm
                have hcomb := prefix_trans_drop hsb h
                have heq : "shadow-brutal".toList ++ "-lg".toList
                    = "shadow-brutal-lg".toList := by decide
                rw [heq] at hcomb
                exact hsbl (prefix_occ hcomb)
              · have hk3 : k < 3 := by
                  have : ("-lg".toList).length = 3 := by decide
                  omega
                have hdec : ∀ k', k' < 3 →
                    ¬ ("-lg".toList.drop k' <+: "shadow-sm".toList) ∧
                    ¬ ("shadow-sm".toList <+: "-lg".toList.drop k') := by decide
                rcases hor with h | h
                · exact (hdec k hk3).1 h
                · exact (hdec k hk3).2 h
          · have hlen : ((c :: t).drop ("shadow-brutal".toList).length).length ≤ n' := by
              have h13 : ("shadow-brutal".toList).length = 13 := by decide
              simp only [List.length_drop, List.length_cons, h13]
              simp only [List.length_cons] at hs
              omega
            exact ih _ hlen (fun ho => hsbl ho.of_drop) (fun ho => hssl ho.of_drop) hocc'
        · rw [if_neg hm] at hocc
          rcases occ_cons_elim hocc with hpre | hocc'
          · have hcons : "shadow-sm-lg".toList = 's' :: "hadow-sm-lg".toList := by decide
            rw [hcons] at hpre
            obtain ⟨rfl, hq'⟩ := List.cons_prefix_cons.1 hpre
            rcases prefix_replaceAll_cases _ _ (by decide) t _ hq' with
              h | ⟨k, hk, _, _, hor⟩
            · refine hssl (prefix_occ ?_)
              rw [hcons]
              exact List.cons_prefix_cons.2 ⟨rfl, h⟩
            · have hk11 : k < 11 := by
                have : ("hadow-sm-lg".toList).length = 11 := by decide
                omega
              have hdec : ∀ k', k' < 11 →
                  ¬ ("hadow-sm-lg".toList.drop k' <+: "shadow-sm".toList) ∧
                  ¬ ("shadow-sm".toList <+: "hadow-sm-lg".toList.drop k') := by decide
              rcases hor with h | h
              · exact (hdec k hk11).1 h
              · exact (hdec k hk11).2 h
          · exact ih t (by simpa using Nat.le_of_succ_le_succ (by simpa using hs))
              (fun ho => hsbl (ho.cons c)) (fun ho => hssl (ho.cons c)) hocc'
  intro s
  exact main s.length s le_rfl

theorem not_occ_of_containsSub_false {q s : List Char} (h : containsSub q s = false) :
    ¬ Occ q s :=
  fun ho => Bool.false_ne_true (h ▸ containsSub_iff.2 ho)

/-- Claim C4 (status: confirmed).  For input containing `shadow-brutal-lg`
(and not already containing `shadow-sm-lg`), the ten substitutions of
`fix_borders.py` rewrite through rule 6 before rule 7 is attempted: the
output contains `shadow-md`, contains no `shadow-brutal-lg` any more, and
never contains `shadow-sm-lg` -- rule 6 consumes every `shadow-brutal-lg`
so rule 7 can never build `shadow-sm-lg` out of one. -/
theorem C4_rule6_before_rule7 (s : List Char)
    (h1 : containsSub "shadow-brutal-lg".toList s = true)
    (h2 : containsSub "shadow-sm-lg".toList s = false) :
    containsSub "shadow-md".toList (applyReplacements s) = true ∧
    containsSub "shadow-brutal-lg".toList (applyReplacements s) = false ∧
    containsSub "shadow-sm-lg".toList (applyReplacements s) = false := by
  have hocc : Occ "shadow-brutal-lg".toList s := containsSub_iff.1 h1
  have hnossl : ¬ Occ "shadow-sm-lg".toList s := by
    intro ho
    have hb := containsSub_iff.2 ho
    rw [h2] at hb
    exact Bool.false_ne_true hb
  have happ : applyReplacements s =
      replaceAll "border-2 border-black".toList "border".toList
        (replaceAll "font-black".toList "font-semibold".toList
          (replaceAll "hover:shadow-brutal".toList "hover:shadow-md".toList
            (replaceAll "shadow-brutal".toList "shadow-sm".toList
              (replaceAll "shadow-brutal-lg".toList "shadow-md".toList
                (replaceAll "border-brutal".toList "border rounded-lg".toList
                  (replaceAll "border-l-4 border-black".toList "border-l".toList
                    (replaceAll "border-t-4 border-black".toList "border-t".toList
                      (replaceAll "border-r-4 border-black".toList "border-r".toList
                        (replaceAll "border-b-4 border-black".toList "border-b".toList
                          s))))))))) := by
    simp only [applyReplacements, replacements, List.foldl_cons, List.foldl_nil]
  have A1 := replaceAll_preserves "border-b-4 border-black".toList "border-b".toList
    "shadow-brutal-lg".toList (by decide) (by decide) (by decide) (by decide) s hocc
  have A2 := replaceAll_preserves "border-r-4 border-black".toList "border-r".toList
    "shadow-brutal-lg".toList (by decide) (by decide) (by decide) (by decide) _ A1
  have A3 := replaceAll_preserves "border-t-4 border-black".toList "border-t".toList
    "shadow-brutal-lg".toList (by decide) (by decide) (by decide) (by decide) _ A2
  have A4 := replaceAll_preserves "border-l-4 border-black".toList "border-l".toList
    "shadow-brutal-lg".toList (by decide) (by decide) (by decide) (by decide) _ A3
  have A5 := replaceAll_preserves "border-brutal".toList "border rounded-lg".toList
    "shadow-brutal-lg".toList (by decide) (by decide) (by decide) (by decide) _ A4
  have B6 := replaceAll_occ_rep "shadow-brutal-lg".toList "shadow-md".toList
    (by decide) _ A5
  have E6 := replaceAll_no_pat "shadow-brutal-lg".toList "shadow-md".toList
    (by decide) (not_occ_of_containsSub_false (by decide)) (by decide) (by decide)
    (replaceAll "border-brutal".toList "border rounded-lg".toList
      (replaceAll "border-l-4 border-black".toList "border-l".toList
        (replaceAll "border-t-4 border-black".toList "border-t".toList
          (replaceAll "border-r-4 border-black".toList "border-r".toList
            (replaceAll "border-b-4 border-black".toList "border-b".toList s)))))
  have N1 := replaceAll_no_create "border-b-4 border-black".toList "border-b".toList
    "shadow-sm-lg".toList (by decide) (by decide) (not_occ_of_containsSub_false (by decide)) (by decide) (by decide)
    s hnossl
  have N2 := replaceAll_no_create "border-r-4 border-black".toList "border-r".toList
    "shadow-sm-lg".toList (by decide) (by decide) (not_occ_of_containsSub_false (by decide)) (by decide) (by decide)
    _ N1
  have N3 := replaceAll_no_create "border-t-4 border-black".toList "border-t".toList
    "shadow-sm-lg".toList (by decide) (by decide) (not_occ_of_containsSub_false (by decide)) (by decide) (by decide)
    _ N2
  have N4 := replaceAll_no_create "border-l-4 border-black".toList "border-l".toList
    "shadow-sm-lg".toList (by decide) (by decide) (not_occ_of_containsSub_false (by decide)) (by decide) (by decide)
    _ N3
  have N5 := replaceAll_no_create "border-brutal".toList "border rounded-lg".toList
    "shadow-sm-lg".toList (by decide) (by decide) (not_occ_of_containsSub_false (by decide)) (by decide) (by decide)
    _ N4
  have N6 := replaceAll_no_create "shadow-brutal-lg".toList "shadow-md".toList
    "shadow-sm-lg".toList (by decide) (by decide) (not_occ_of_containsSub_false (by decide)) (by decide) (by decide)
    _ N5
  have L7 := replaceAll_rule7_no_ssl _ E6 N6
  have Q7 := replaceAll_no_create "shadow-brutal".toList "shadow-sm".toList
    "shadow-brutal-lg".toList (by decide) (by decide) (not_occ_of_containsSub_false (by decide)) (by decide) (by decide)
    _ E6
  have B7 := replaceAll_preserves "shadow-brutal".toList "shadow-sm".toList
    "shadow-md".toList (by decide) (by decide) (by decide) (by decide) _ B6
  have Q8 := replaceAll_no_create "hover:shadow-brutal".toList "hover:shadow-md".toList
    "shadow-brutal-lg".toList (by decide) (by decide) (not_occ_of_containsSub_false (by decide)) (by decide) (by decide)
    _ Q7
  have N8 := replaceAll_no_create "hover:shadow-brutal".toList "hover:shadow-md".toList
    "shadow-sm-lg".toList (by decide) (by decide) (not_occ_of_containsSub_false (by decide)) (by decide) (by decide)
    _ L7
  have B8 := replaceAll_preserves "hover:shadow-brutal".toList "hover:shadow-md".toList
    "shadow-md".toList (by decide) (by decide) (by decide) (by decide) _ B7
  have Q9 := replaceAll_no_create "font-black".toList "font-semibold".toList
    "shadow-brutal-lg".toList (by decide) (by decide) (not_occ_of_containsSub_false (by decide)) (by decide) (by decide)
    _ Q8
  have N9 := replaceAll_no_create "font-black".toList "font-semibold".toList
    "shadow-sm-lg".toList (by decide) (by decide) (not_occ_of_containsSub_false (by decide)) (by decide) (by decide)
    _ N8
  have B9 := replaceAll_preserves "font-black".toList "font-semibold".toList
    "shadow-md".toList (by decide) (by decide) (by decide) (by decide) _ B8
  have Q10 := replaceAll_no_create "border-2 border-black".toList "border".toList
    "shadow-brutal-lg".toList (by decide) (by decide) (not_occ_of_containsSub_false (by decide)) (by decide) (by decide)
    _ Q9
  have N10 := replaceAll_no_create "border-2 border-black".toList "border".toList
    "shadow-sm-lg".toList (by decide) (by decide) (not_occ_of_containsSub_false (by decide)) (by decide) (by decide)
    _ N9
  have B10 := replaceAll_preserves "border-2 border-black".toList "border".toList
    "shadow-md".toList (by decide) (by decide) (by decide) (by decide) _ B9
  refine ⟨?_, ?_, ?_⟩
  · rw [happ]
    exact containsSub_iff.2 B10
  · rw [happ]
    exact Bool.eq_false_iff.2 (fun hb => Q10 (containsSub_iff.1 hb))
  · rw [happ]
    exact Bool.eq_false_iff.2 (fun hb => N10 (containsSub_iff.1 hb))

/-- Witness for C4 at a concrete input: the occurrence is rewritten to
`shadow-md` and no `shadow-sm-lg` is ever produced. -/
theorem C4_witness :
    (containsSub "shadow-brutal-lg".toList "x shadow-brutal-lg y".toList = true ∧
      containsSub "shadow-sm-lg".toList "x shadow-brutal-lg y".toList = false) ∧
    (containsSub "shadow-md".toList (applyReplacements "x shadow-brutal-lg y".toList) = true ∧
      containsSub "shadow-brutal-lg".toList
        (applyReplacements "x shadow-brutal-lg y".toList) = false ∧
      containsSub "shadow-sm-lg".toList
        (applyReplacements "x shadow-brutal-lg y".toList) = false) :=
  ⟨⟨by decide, by decide⟩, C4_rule6_before_rule7 _ (by decide) (by decide)⟩
